import Mathlib

/-!
Verification of the boilerplate-setup tool (sources: src/index.ts,
src/setups/vscode.ts, src/utils.ts) against its natural-language
specification.  The TypeScript code is shallowly embedded: strings are
`List Char`, the JavaScript regular expressions used by the tool are
embedded as explicit scanning functions (their character classes contain
no separator characters, so the greedy one-pass scan below is exactly
the backtracking semantics of the originals), file contents are carried
in an explicit `FileState`, and the interactive prompt flow is a pure
function of the per-question user events.

The file is laid out with all definitions first, followed by all
theorems.
-/

/-! ## Definitions -/

/-! ### Changelog reset (vscode.ts lines 203-213)

The tool splits the changelog on the JavaScript regexp split pattern
consisting of CRLF, CR or LF, keeps every line starting with the
HTML-comment opener, joins the kept lines with LF and appends a final
LF. -/

def commentMarker : List Char := ("<!--").toList

/-- Line splitting on the pattern CRLF-or-CR-or-LF, as in
`changelog.split(/\r\n|\r|\n/)`. -/
def splitLines : List Char → List (List Char)
  | [] => [[]]
  | '\r' :: '\n' :: rest => [] :: splitLines rest
  | '\r' :: rest => [] :: splitLines rest
  | '\n' :: rest => [] :: splitLines rest
  | c :: rest =>
    match splitLines rest with
    | [] => [[c]]
    | l :: ls => (c :: l) :: ls

/-- The accumulation loop of the changelog step: push every line that
starts with the comment marker, in order. -/
def collectComments : List (List Char) → List (List Char)
  | [] => []
  | l :: ls =>
    if commentMarker.isPrefixOf l then l :: collectComments ls
    else collectComments ls

/-- Joining lines with a newline, as in `array.join('\n')`. -/
def joinNL : List (List Char) → List Char
  | [] => []
  | [l] => l
  | l :: ls => l ++ '\n' :: joinNL ls

/-- The whole changelog rewrite
`frontCommentsOfChangeLog.join('\n') + '\n'`. -/
def resetChangelog (s : List Char) : List Char :=
  joinNL (collectComments (splitLines s)) ++ ['\n']

/-! ### Keyword splitting and validation (vscode.ts lines 15, 89-102)

`separatorRegexp = /\s*,\s*/`; the keywords prompt rejects an empty
input and an input whose `value.trim().split(separatorRegexp)` has more
than 5 entries, and parses the accepted input with
`input.trim().split(separatorRegexp).filter(Boolean)`. -/

/-- JavaScript `\s` restricted to the ASCII whitespace characters
(space, tab, LF, CR, vertical tab, form feed); the inputs treated here
contain no exotic Unicode spaces. -/
def jsSpace (c : Char) : Bool :=
  c = ' ' || c = '\t' || c = '\n' || c = '\r' || c = Char.ofNat 11 || c = Char.ofNat 12

/-- JavaScript `String.prototype.trim`. -/
def trimChars (l : List Char) : List Char :=
  ((l.dropWhile jsSpace).reverse.dropWhile jsSpace).reverse

/-- Match of `/\s*,\s*/` anchored at the head of `l`: greedy whitespace,
a comma, greedy whitespace.  Returns the text after the match.  The
whitespace class does not contain the comma, so the greedy scan never
needs to backtrack. -/
def matchSepAt (l : List Char) : Option (List Char) :=
  match l.dropWhile jsSpace with
  | ',' :: r2 => some (r2.dropWhile jsSpace)
  | _ => none

/-- Leftmost match of `/\s*,\s*/` in `l`: the text before the match and
the text after it. -/
def matchFirstSep : List Char → Option (List Char × List Char)
  | [] => none
  | x :: xs =>
    match matchSepAt (x :: xs) with
    | some post => some ([], post)
    | none =>
      match matchFirstSep xs with
      | none => none
      | some (pre, post) => some (x :: pre, post)

/-- Fuelled splitting loop of `String.prototype.split(/\s*,\s*/)`.
Every match consumes at least the comma, so `l.length + 1` units of
fuel always suffice (`splitSepF_fuel_irrelevant` below). -/
def splitSepF : Nat → List Char → List (List Char)
  | 0, l => [l]
  | fuel + 1, l =>
    match matchFirstSep l with
    | none => [l]
    | some (pre, post) => pre :: splitSepF fuel post

/-- JavaScript `l.split(/\s*,\s*/)`. -/
def splitSep (l : List Char) : List (List Char) :=
  splitSepF (l.length + 1) l

def keywordsEmptyMsg : List Char := ("keywords can't be empty").toList

def keywordsLimitMsg : List Char := ("this list is currently limited to 5 keywords").toList

/-- The keywords prompt validator: `none` means the input is accepted. -/
def keywordsValidate (value : List Char) : Option (List Char) :=
  if value.isEmpty then some keywordsEmptyMsg
  else if 5 < (splitSep (trimChars value)).length then some keywordsLimitMsg
  else none

/-- The keywords parse applied to the accepted input:
`input.trim().split(separatorRegexp).filter(Boolean)`. -/
def keywordsParse (input : List Char) : List (List Char) :=
  (splitSep (trimChars input)).filter (fun s => !s.isEmpty)

def kwSix : List Char := ("a, b, c, d, e, f").toList

def kwThree : List Char := ("a, b, c").toList

/-! ### JavaScript regular expressions of the tool

`repositoryUrlRegexp = /https:\/\/[\w\-.]+\/\w+\/[\w\-]+/` (vscode.ts
line 16), `sshUrlRegexp = /git@([\w\-.]+):(\w+)\/([\w\-]+)\.git/`
(index.ts line 14) and the licence pattern
`/Copyright \(c\) \d+ \w+/` (vscode.ts line 219).  All their character
classes exclude the literal separators that follow them, so a greedy
maximal run never has to backtrack and the one-pass scans below have
exactly the JavaScript matching semantics. -/

def isWordChar (c : Char) : Bool := c.isAlpha || c.isDigit || c = '_'

def isHostChar (c : Char) : Bool := isWordChar c || c = '-' || c = '.'

def isRepoChar (c : Char) : Bool := isWordChar c || c = '-'

def httpsLit : List Char := ("https://").toList

def gitAtLit : List Char := ("git@").toList

def dotGitLit : List Char := (".git").toList

def copyrightLit : List Char := ("Copyright (c) ").toList

/-- Greedy match of `p+` followed by the literal `sep`, anchored at the
head of `l`; returns the run and the text after the separator. -/
def runThen (p : Char → Bool) (sep : Char) (l : List Char) : Option (List Char × List Char) :=
  if (l.takeWhile p).isEmpty then none
  else
    match l.dropWhile p with
    | [] => none
    | c :: rest => if c = sep then some (l.takeWhile p, rest) else none

/-- Match of the repository-URL regexp anchored at the head of `l`;
returns the matched text and the remainder. -/
def matchUrlAt (l : List Char) : Option (List Char × List Char) :=
  if httpsLit.isPrefixOf l then
    match runThen isHostChar '/' (l.drop httpsLit.length) with
    | none => none
    | some (a, r2) =>
      match runThen isWordChar '/' r2 with
      | none => none
      | some (b, r4) =>
        let c := r4.takeWhile isRepoChar
        if c.isEmpty then none
        else some (httpsLit ++ a ++ '/' :: (b ++ '/' :: c), r4.dropWhile isRepoChar)
  else none

/-- Leftmost match of the repository-URL regexp in `l`: text before the
match, the match, text after the match. -/
def matchFirstUrl : List Char → Option (List Char × List Char × List Char)
  | [] => none
  | x :: xs =>
    match matchUrlAt (x :: xs) with
    | some (m, rest) => some ([], m, rest)
    | none =>
      match matchFirstUrl xs with
      | none => none
      | some (pre, m, rest) => some (x :: pre, m, rest)

/-- The declarative shape of a repository-URL match, written from the
regexp itself: `https://`, a nonempty `[\w\-.]` run, a slash, a nonempty
`\w` run, a slash, a nonempty `[\w\-]` run. -/
def urlShaped (m : List Char) : Prop :=
  ∃ a b c, a ≠ [] ∧ b ≠ [] ∧ c ≠ [] ∧
    (∀ x ∈ a, isHostChar x) ∧ (∀ x ∈ b, isWordChar x) ∧ (∀ x ∈ c, isRepoChar x) ∧
    m = httpsLit ++ a ++ '/' :: (b ++ '/' :: c)

/-- JavaScript `String.prototype.replace` expansion of the replacement
string: `$$`, `$&`, the dollar-backquote form (text before the match)
and the dollar-quote form (text after the match); the regexps of this
tool have no capture groups used in replacements, so `$n` stays
literal.  `m` is the matched text, `b` the text before it, `a` the text
after it. -/
def expandRepl (m b a : List Char) : List Char → List Char
  | [] => []
  | c :: rest =>
    if c = '$' then
      match rest with
      | [] => ['$']
      | d :: r =>
        if d = '$' then '$' :: expandRepl m b a r
        else if d = '&' then m ++ expandRepl m b a r
        else if d = Char.ofNat 39 then a ++ expandRepl m b a r
        else if d = Char.ofNat 96 then b ++ expandRepl m b a r
        else '$' :: expandRepl m b a (d :: r)
    else c :: expandRepl m b a rest

/-- `s.replace(repositoryUrlRegexp, repoUrl)`: replace the first match
of the repository-URL regexp by the replacement string. -/
def replaceUrl (repoUrl s : List Char) : List Char :=
  match matchFirstUrl s with
  | none => s
  | some (pre, m, post) => pre ++ expandRepl m pre post repoUrl ++ post

/-- Match of the SSH remote regexp anchored at the head of `l`; returns
the three capture groups (hostname, user name, repository name). -/
def matchSshAt (l : List Char) : Option (List Char × List Char × List Char) :=
  if gitAtLit.isPrefixOf l then
    match runThen isHostChar ':' (l.drop gitAtLit.length) with
    | none => none
    | some (h, r2) =>
      match runThen isWordChar '/' r2 with
      | none => none
      | some (u, r3) =>
        let r := r3.takeWhile isRepoChar
        if r.isEmpty then none
        else if dotGitLit.isPrefixOf (r3.dropWhile isRepoChar) then some (h, u, r)
        else none
  else none

/-- Leftmost match of the SSH remote regexp in `l` (capture groups
only, as used by `stdout.match(sshUrlRegexp)`). -/
def matchFirstSsh : List Char → Option (List Char × List Char × List Char)
  | [] => none
  | x :: xs =>
    match matchSshAt (x :: xs) with
    | some res => some res
    | none => matchFirstSsh xs

/-- The declarative shape of an SSH remote match, written from the
regexp itself: `git@`, a nonempty `[\w\-.]` run, a colon, a nonempty
`\w` run, a slash, a nonempty `[\w\-]` run, then the literal `.git`. -/
def sshShaped (m : List Char) : Prop :=
  ∃ h u r, h ≠ [] ∧ u ≠ [] ∧ r ≠ [] ∧
    (∀ x ∈ h, isHostChar x) ∧ (∀ x ∈ u, isWordChar x) ∧ (∀ x ∈ r, isRepoChar x) ∧
    m = gitAtLit ++ h ++ ':' :: (u ++ '/' :: (r ++ dotGitLit))

/-- Match of the licence copyright pattern anchored at the head of `l`:
the literal `Copyright (c) `, a nonempty digit run, a space, a nonempty
`\w` run. -/
def matchCopyrightAt (l : List Char) : Option (List Char × List Char) :=
  if copyrightLit.isPrefixOf l then
    match runThen Char.isDigit ' ' (l.drop copyrightLit.length) with
    | none => none
    | some (d, r2) =>
      let w := r2.takeWhile isWordChar
      if w.isEmpty then none
      else some (copyrightLit ++ d ++ ' ' :: w, r2.dropWhile isWordChar)
  else none

/-- Leftmost match of the licence copyright pattern in `l`. -/
def matchFirstCopyright : List Char → Option (List Char × List Char × List Char)
  | [] => none
  | x :: xs =>
    match matchCopyrightAt (x :: xs) with
    | some (m, rest) => some ([], m, rest)
    | none =>
      match matchFirstCopyright xs with
      | none => none
      | some (pre, m, rest) => some (x :: pre, m, rest)

/-- Fuelled decimal-digit accumulator; each step divides by ten, so
`n + 1` units of fuel always suffice (`natCharsF_fuel_irrelevant`
below). -/
def natCharsF : Nat → Nat → List Char
  | 0, _ => []
  | fuel + 1, n =>
    if n < 10 then [Nat.digitChar n]
    else natCharsF fuel (n / 10) ++ [Nat.digitChar (n % 10)]

/-- Decimal digits of a natural number, as interpolated by the
JavaScript template literal for `new Date().getFullYear()`. -/
def natChars (n : Nat) : List Char := natCharsF (n + 1) n

/-- The replacement string of the licence step:
`Copyright (c) YEAR NAME`. -/
def copyrightText (year : Nat) (name : List Char) : List Char :=
  copyrightLit ++ natChars year ++ ' ' :: name

/-- The licence rewrite (vscode.ts lines 215-223): replace the first
match of the copyright pattern with the current year and the resolved
author name. -/
def licenseUpdate (license : List Char) (year : Nat) (name : List Char) : List Char :=
  match matchFirstCopyright license with
  | none => license
  | some (pre, m, post) => pre ++ expandRepl m pre post (copyrightText year name) ++ post

/-! ### Data model (types.ts, utils.ts)

The manifest fields that the tool touches are modelled explicitly; all
remaining manifest content is carried opaquely in `rest` (and in the
untouched `engines` / `devDependencies` fields). -/

structure Badge where
  url : List Char
  description : List Char
  href : List Char
deriving DecidableEq

structure AuthorField where
  name : List Char
  email : List Char
  url : List Char
deriving DecidableEq

structure BugsField where
  url : List Char
  email : List Char
deriving DecidableEq

structure RepositoryField where
  type : List Char
  url : List Char
deriving DecidableEq

structure EnginesField where
  vscode : List Char
deriving DecidableEq

structure Pkg where
  name : List Char
  displayName : List Char
  description : List Char
  author : AuthorField
  keywords : List (List Char)
  categories : List (List Char)
  homepage : List Char
  repository : RepositoryField
  bugs : BugsField
  badges : List Badge
  engines : EnginesField
  devDependencies : List (List Char × List Char)
  rest : List (List Char × List Char)
deriving DecidableEq

/-- The record returned by `getRepositoryInfo` (index.ts lines 21-29,
types.ts). -/
structure RepositoryInfo where
  hostname : List Char
  name : List Char
  email : List Char
  url : List Char
  userName : List Char
  repoName : List Char
  repoUrl : List Char
deriving DecidableEq

/-- The answer set produced by the prompt group (vscode.ts lines
30-166). -/
structure Options where
  name : List Char
  displayName : List Char
  description : List Char
  authorName : List Char
  authorEmail : List Char
  authorUrl : List Char
  keywords : List (List Char)
  categories : List (List Char)
  installDeps : Bool
  updateDeps : Bool
  commit : Bool
deriving DecidableEq

/-- One user event per question of the prompt flow: `none` is a
cancellation at that question, `some v` the finally submitted
(validator-accepted) value. -/
structure UserEvents where
  name : Option (List Char)
  displayName : Option (List Char)
  description : Option (List Char)
  authorName : Option (List Char)
  authorEmail : Option (List Char)
  authorUrl : Option (List Char)
  keywords : Option (List Char)
  categories : Option (List Char)
  installDeps : Option Bool
  updateDeps : Option Bool
  commit : Option Bool
deriving DecidableEq

/-- The three files the tool rewrites. -/
structure FileState where
  pkgFile : Pkg
  changelog : List Char
  license : List Char
deriving DecidableEq

/-- Outcome of `setup`: either `process.exit(0)` from the group's
`onCancel` (files as they were at that point), or normal completion. -/
inductive RunOutcome where
  | cancelledExit (exitCode : Nat) (files : FileState)
  | completed (files : FileState)
deriving DecidableEq

/-- Outcome of `main`: a thrown error before `setup` is reached, or the
outcome of `setup`. -/
inductive MainOutcome where
  | fatal (msg : List Char) (files : FileState)
  | ran (outcome : RunOutcome)
deriving DecidableEq

def outFiles : RunOutcome → FileState
  | .cancelledExit _ f => f
  | .completed f => f

/-! ### The setup pipeline (vscode.ts) -/

def prsWelcome : List Char := ("PRs Welcome").toList

/-- The badge mutation: `badges.find(b => b.description === 'PRs
Welcome')` followed by the URL substitution on that badge's `href`
(first matching badge only). -/
def updateBadges (repoUrl : List Char) : List Badge → List Badge
  | [] => []
  | b :: bs =>
    if b.description = prsWelcome then
      { b with href := replaceUrl repoUrl b.href } :: bs
    else b :: updateBadges repoUrl bs

/-- The categories parse
`input.trim().split(separatorRegexp).filter(Boolean)` (vscode.ts line
122). -/
def categoriesParse (input : List Char) : List (List Char) :=
  (splitSep (trimChars input)).filter (fun s => !s.isEmpty)

/-- The manifest rewrite step (vscode.ts lines 175-201). -/
def rewritePkg (p : Pkg) (o : Options) (info : RepositoryInfo) : Pkg :=
  { p with
    name := o.name
    displayName := o.displayName
    description := o.description
    author := { name := o.authorName, email := o.authorEmail, url := o.authorUrl }
    keywords := o.keywords
    categories := o.categories
    homepage := replaceUrl info.repoUrl p.homepage
    repository := { p.repository with url := info.repoUrl }
    bugs := { url := replaceUrl info.repoUrl p.bugs.url, email := info.email }
    badges := updateBadges info.repoUrl p.badges }

def typesVscodeKey : List Char := ("@types/vscode").toList

def lookupDep (deps : List (List Char × List Char)) (k : List Char) : Option (List Char) :=
  match deps.find? (fun d => d.1 == k) with
  | none => none
  | some d => some d.2

/-- The in-memory computation of vscode.ts line 238:
`pkg.engines.vscode = pkg.devDependencies['@types/vscode']` on the
manifest re-read from disk.  The code stores this into a local variable
that goes out of scope without ever being written back to disk. -/
def mirrorEngines (p : Pkg) : Option Pkg :=
  (lookupDep p.devDependencies typesVscodeKey).map
    (fun v => { p with engines := { vscode := v } })

/-- The prompt group (vscode.ts lines 30-166) as a function of the user
events.  A `none` result means a task returned the clack cancel symbol,
so the group's `onCancel` fired: `process.exit(0)`.  The keywords,
categories, installDeps and updateDeps tasks intercept `isCancel`
themselves and return a default instead of the cancel symbol, so
cancelling there never reaches `onCancel`.  `installDeps` is resolved
without prompting when `node_modules` already exists, and `updateDeps`
is only prompted when the dependencies are or will be installed. -/
def runFlow (installed : Bool) (ev : UserEvents) : Option Options :=
  match ev.name with
  | none => none
  | some nm =>
  match ev.displayName with
  | none => none
  | some dn =>
  match ev.description with
  | none => none
  | some ds =>
  match ev.authorName with
  | none => none
  | some an =>
  match ev.authorEmail with
  | none => none
  | some ae =>
  match ev.authorUrl with
  | none => none
  | some au =>
  let kws : List (List Char) :=
    match ev.keywords with
    | none => []
    | some raw => keywordsParse raw
  let cats : List (List Char) :=
    match ev.categories with
    | none => []
    | some raw => categoriesParse raw
  let inst : Bool := if installed then false else ev.installDeps.getD false
  let upd : Bool := if installed || inst then ev.updateDeps.getD false else false
  match ev.commit with
  | none => none
  | some cm =>
    some { name := nm, displayName := dn, description := ds, authorName := an,
           authorEmail := ae, authorUrl := au, keywords := kws, categories := cats,
           installDeps := inst, updateDeps := upd, commit := cm }

/-- The whole `setup` run (vscode.ts lines 26-255) as a function on the
three files.  Cancellation exits with code 0 before any write step.  On
completion the manifest rewrite, the changelog reset and the licence
update are applied in order; `pnpm install` does not modify the three
files; the dependency-upgrade step replaces the on-disk manifest with
`tazePkg` (the external upgrade tool's output) and then computes
`mirrorEngines` of the re-read manifest into a local variable that is
never written back, so it leaves the disk unchanged; the git commit does
not modify the three files. -/
def setupRun (info : RepositoryInfo) (installed : Bool) (ev : UserEvents)
    (fs : FileState) (year : Nat) (tazePkg : Pkg) : RunOutcome :=
  match runFlow installed ev with
  | none => .cancelledExit 0 fs
  | some o =>
    let fs1 : FileState := { fs with pkgFile := rewritePkg fs.pkgFile o info }
    let fs2 : FileState := { fs1 with changelog := resetChangelog fs1.changelog }
    let fs3 : FileState := { fs2 with license := licenseUpdate fs2.license year info.name }
    let fs4 : FileState := if o.updateDeps then { fs3 with pkgFile := tazePkg } else fs3
    .completed fs4

/-! ### Repository info resolution and main (index.ts) -/

def remoteErrMsg : List Char := ("You must set a remote named origin with ssh format").toList

def httpsOf (hostname user repo : List Char) : List Char :=
  httpsLit ++ hostname ++ '/' :: (user ++ '/' :: repo)

/-- `getRepositoryInfo` (index.ts lines 12-30), as a function of the
three captured git outputs. -/
def getRepositoryInfo (remoteStdout nameStdout emailStdout : List Char) :
    Except (List Char) RepositoryInfo :=
  match matchFirstSsh remoteStdout with
  | none => .error remoteErrMsg
  | some (hostname, userName, repoName) =>
    .ok { hostname := hostname, name := nameStdout, email := emailStdout,
          url := httpsOf hostname userName userName,
          userName := userName, repoName := repoName,
          repoUrl := httpsOf hostname userName repoName }

/-- `main` (index.ts lines 32-40): resolve the repository info, then run
`setup`; a resolution error is thrown before any later step runs. -/
def mainRun (remoteStdout nameStdout emailStdout : List Char) (installed : Bool)
    (ev : UserEvents) (fs : FileState) (year : Nat) (tazePkg : Pkg) : MainOutcome :=
  match getRepositoryInfo remoteStdout nameStdout emailStdout with
  | .error msg => .fatal msg fs
  | .ok info => .ran (setupRun info installed ev fs year tazePkg)

/-! ### Spec-side description of the URL substitution

The specification describes `homepage`, `repository.url` and
`bugs.url` as rewritten by substituting any embedded
repository-URL-shaped substring with the resolved repository URL; the
following predicate renders that description declaratively. -/

def urlSubstituted (repoUrl old new : List Char) : Prop :=
  (∃ pre m post, old = pre ++ m ++ post ∧ urlShaped m ∧ new = pre ++ repoUrl ++ post) ∨
  ((∀ pre m post, old = pre ++ m ++ post → ¬ urlShaped m) ∧ new = old)

/-! ### Concrete fixtures used by counterexamples and witnesses -/

def licPre : List Char := ("MIT License\n\n").toList

def licCopyOld : List Char := ("Copyright (c) 2020 OldName").toList

def licPost : List Char := (",\nall rights reserved.\n").toList

def licSample : List Char := licPre ++ licCopyOld ++ licPost

def infoA : RepositoryInfo :=
  { hostname := ("github.com").toList
    name := ("Jane").toList
    email := ("jane@mail.com").toList
    url := ("https://github.com/alice/alice").toList
    userName := ("alice").toList
    repoName := ("newrepo").toList
    repoUrl := ("https://github.com/alice/newrepo").toList }

def optsA : Options :=
  { name := ("my-ext").toList
    displayName := ("My Ext").toList
    description := ("desc").toList
    authorName := ("Jane").toList
    authorEmail := ("jane@mail.com").toList
    authorUrl := ("https://j").toList
    keywords := [("k").toList]
    categories := [("Other").toList]
    installDeps := false
    updateDeps := false
    commit := true }

def pkgA : Pkg :=
  { name := ("old-ext").toList
    displayName := ("Old Ext").toList
    description := ("old desc").toList
    author := { name := ("Old").toList, email := ("old@mail.com").toList, url := ("https://o").toList }
    keywords := [("o").toList]
    categories := [("Other").toList]
    homepage := ("https://github.com/old/old").toList
    repository := { type := ("git").toList, url := ("git+https://github.com/old/old.git").toList }
    bugs := { url := ("https://github.com/old/old/issues").toList, email := ("old@mail.com").toList }
    badges := []
    engines := { vscode := ("^1.70.0").toList }
    devDependencies := [(typesVscodeKey, ("^1.84.0").toList)]
    rest := [] }

def fsA : FileState :=
  { pkgFile := pkgA
    changelog := ("<!-- header -->\n## 0.0.1\nnotes").toList
    license := licSample }

/-- User events answering every question, except that the keywords
question is cancelled. -/
def evCancelKeywords : UserEvents :=
  { name := some (("my-ext").toList)
    displayName := some (("My Ext").toList)
    description := some (("desc").toList)
    authorName := some (("Jane").toList)
    authorEmail := some (("jane@mail.com").toList)
    authorUrl := some (("https://j").toList)
    keywords := none
    categories := some (("Other").toList)
    installDeps := some false
    updateDeps := some false
    commit := some true }

/-- User events cancelling at the very first question. -/
def evCancelName : UserEvents := { evCancelKeywords with name := none }

/-- User events answering every question, choosing the dependency
upgrade. -/
def evFullUpdate : UserEvents :=
  { evCancelKeywords with keywords := some (("k").toList), updateDeps := some true }

/-- A remote origin URL in HTTPS form, which the SSH pattern does not
match. -/
def badRemote : List Char := ("https://github.com/tjx666/boilerplate-setup.git\n").toList

/-- A remote origin URL in the expected SSH form. -/
def goodRemote : List Char := ("git@github.com:tjx666/boilerplate-setup.git\n").toList

/-! ## Theorems -/

/-! ### Changelog lemmas, C6 and C7 -/

theorem splitLines_crnl (rest : List Char) :
    splitLines ('\r' :: '\n' :: rest) = [] :: splitLines rest := rfl

theorem splitLines_nl (rest : List Char) :
    splitLines ('\n' :: rest) = [] :: splitLines rest := rfl

theorem splitLines_cr (d : Char) (rest2 : List Char) (hd : d ≠ '\n') :
    splitLines ('\r' :: d :: rest2) = [] :: splitLines (d :: rest2) := by
  simp [splitLines, hd]

theorem splitLines_other (c : Char) (rest l : List Char) (ls : List (List Char))
    (h1 : c ≠ '\r') (h2 : c ≠ '\n') (h : splitLines rest = l :: ls) :
    splitLines (c :: rest) = (c :: l) :: ls := by
  simp [splitLines, h1, h2, h]

theorem splitLines_ne_nil (s : List Char) : splitLines s ≠ [] := by
  induction s using splitLines.induct <;> simp_all [splitLines]

theorem collectComments_eq_filter (ls : List (List Char)) :
    collectComments ls = ls.filter (fun l => commentMarker.isPrefixOf l) := by
  induction ls with
  | nil => rfl
  | cons l ls ih =>
    by_cases h : commentMarker.isPrefixOf l <;>
      simp [collectComments, List.filter, h, ih]

theorem mem_splitLines_clean (s : List Char) :
    ∀ l ∈ splitLines s, '\n' ∉ l ∧ '\r' ∉ l := by
  induction s using splitLines.induct with
  | case1 =>
    intro l hl
    simp only [splitLines, List.mem_singleton] at hl
    simp [hl]
  | case2 rest ih =>
    intro l hl
    rw [splitLines_crnl] at hl
    rcases List.mem_cons.mp hl with h | h
    · simp [h]
    · exact ih l h
  | case3 rest hr ih =>
    intro l hl
    have hunf : splitLines ('\r' :: rest) = [] :: splitLines rest := by
      cases rest with
      | nil => rfl
      | cons d r2 => exact splitLines_cr d r2 (fun hd => hr r2 (by rw [hd]))
    rw [hunf] at hl
    rcases List.mem_cons.mp hl with h | h
    · simp [h]
    · exact ih l h
  | case4 rest ih =>
    intro l hl
    rw [splitLines_nl] at hl
    rcases List.mem_cons.mp hl with h | h
    · simp [h]
    · exact ih l h
  | case5 c rest h0 hc1 hc2 hsp ih =>
    exact absurd hsp (splitLines_ne_nil rest)
  | case6 c rest h0 hc1 hc2 l0 ls0 hsp ih =>
    intro l hl
    rw [splitLines_other c rest l0 ls0 hc1 hc2 hsp] at hl
    rcases List.mem_cons.mp hl with h | h
    · subst h
      have hhd := ih l0 (by rw [hsp]; exact List.mem_cons_self l0 ls0)
      constructor
      · intro hmem
        rcases List.mem_cons.mp hmem with h | h
        · exact hc2 h.symm
        · exact hhd.1 h
      · intro hmem
        rcases List.mem_cons.mp hmem with h | h
        · exact hc1 h.symm
        · exact hhd.2 h
    · exact ih l (by rw [hsp]; exact List.mem_cons_of_mem l0 h)

theorem splitLines_append_newline (l rest : List Char)
    (h1 : '\n' ∉ l) (h2 : '\r' ∉ l) :
    splitLines (l ++ '\n' :: rest) = l :: splitLines rest := by
  induction l with
  | nil => exact splitLines_nl rest
  | cons c l ih =>
    have hc1 : c ≠ '\r' := fun h => h2 (h ▸ List.mem_cons_self c l)
    have hc2 : c ≠ '\n' := fun h => h1 (h ▸ List.mem_cons_self c l)
    have ih' := ih (fun h => h1 (List.mem_cons_of_mem c h))
      (fun h => h2 (List.mem_cons_of_mem c h))
    rw [List.cons_append]
    exact splitLines_other c (l ++ '\n' :: rest) l (splitLines rest) hc1 hc2 ih'

theorem splitLines_joinNL (ls : List (List Char)) (hne : ls ≠ [])
    (hclean : ∀ l ∈ ls, '\n' ∉ l ∧ '\r' ∉ l) :
    splitLines (joinNL ls ++ ['\n']) = ls ++ [[]] := by
  induction ls with
  | nil => exact absurd rfl hne
  | cons a ls ih =>
    have ha := hclean a (List.mem_cons_self a ls)
    cases ls with
    | nil =>
      show splitLines (a ++ '\n' :: []) = [a, []]
      rw [splitLines_append_newline a [] ha.1 ha.2]
      rfl
    | cons b ls' =>
      have hj : joinNL (a :: b :: ls') = a ++ '\n' :: joinNL (b :: ls') := rfl
      rw [hj]
      have hassoc : (a ++ '\n' :: joinNL (b :: ls')) ++ ['\n'] =
          a ++ '\n' :: (joinNL (b :: ls') ++ ['\n']) := by simp
      rw [hassoc, splitLines_append_newline a _ ha.1 ha.2,
        ih (by simp) (fun l hl => hclean l (List.mem_cons_of_mem a hl))]
      rfl

/-- C6: for every changelog file content, the changelog reset step
overwrites the file with exactly the lines that start with the comment
marker, all of them wherever they occur, in their original order,
joined by newlines, with one trailing newline appended, and nothing
else (every line of the rewritten file starts with the marker, apart
from the empty line produced by the trailing newline). -/
theorem c6_changelog_reset_exact (s : List Char) :
    resetChangelog s =
      joinNL ((splitLines s).filter (fun l => commentMarker.isPrefixOf l)) ++ ['\n'] ∧
    ∀ l ∈ splitLines (resetChangelog s), l = [] ∨ commentMarker.isPrefixOf l := by
  constructor
  · rw [resetChangelog, collectComments_eq_filter]
  · intro l hl
    rw [resetChangelog, collectComments_eq_filter] at hl
    have hclean : ∀ p ∈ (splitLines s).filter (fun l => commentMarker.isPrefixOf l),
        '\n' ∉ p ∧ '\r' ∉ p :=
      fun p hp => mem_splitLines_clean s p (List.mem_of_mem_filter hp)
    cases hcse : (splitLines s).filter (fun l => commentMarker.isPrefixOf l) with
    | nil =>
      rw [hcse] at hl
      have hsl : splitLines (joinNL ([] : List (List Char)) ++ ['\n']) = [[], []] := rfl
      rw [hsl] at hl
      left
      simpa using hl
    | cons c cs' =>
      rw [hcse] at hl
      rw [splitLines_joinNL (c :: cs') (by simp) (hcse ▸ hclean)] at hl
      rcases List.mem_append.mp hl with h | h
      · right
        exact List.of_mem_filter (p := fun l => commentMarker.isPrefixOf l) (hcse ▸ h)
      · left
        simpa using h

/-- C7: the changelog reset transformation is idempotent: applying the
reset to its own output yields the same output. -/
theorem c7_changelog_reset_idempotent (s : List Char) :
    resetChangelog (resetChangelog s) = resetChangelog s := by
  have hmarker : commentMarker.isPrefixOf ([] : List Char) = false := rfl
  rw [resetChangelog, resetChangelog, collectComments_eq_filter, collectComments_eq_filter]
  have hclean : ∀ p ∈ (splitLines s).filter (fun l => commentMarker.isPrefixOf l),
      '\n' ∉ p ∧ '\r' ∉ p :=
    fun p hp => mem_splitLines_clean s p (List.mem_of_mem_filter hp)
  cases hcse : (splitLines s).filter (fun l => commentMarker.isPrefixOf l) with
  | nil =>
    rfl
  | cons c cs' =>
    rw [splitLines_joinNL (c :: cs') (by simp) (hcse ▸ hclean), List.filter_append]
    have h1 : List.filter (fun l => commentMarker.isPrefixOf l) (c :: cs') = c :: cs' := by
      rw [← hcse, List.filter_filter]
      simp
    have h2 : List.filter (fun l => commentMarker.isPrefixOf l) [([] : List Char)] = [] := by
      simp [List.filter, hmarker]
    rw [h1, h2, List.append_nil]

/-! ### Keyword split lemmas and C8 -/

theorem dropWhile_length_le (p : Char → Bool) (l : List Char) :
    (l.dropWhile p).length ≤ l.length := by
  induction l with
  | nil => simp
  | cons a l ih =>
    by_cases h : p a
    · rw [List.dropWhile_cons_of_pos h]
      simp only [List.length_cons]
      omega
    · rw [List.dropWhile_cons_of_neg h]

theorem matchSepAt_shrink (l post : List Char) (h : matchSepAt l = some post) :
    post.length < l.length := by
  unfold matchSepAt at h
  cases hd : l.dropWhile jsSpace with
  | nil => rw [hd] at h; exact absurd h (by simp)
  | cons c r2 =>
    rw [hd] at h
    by_cases hc : c = ','
    · subst hc
      simp only [Option.some.injEq] at h
      subst h
      calc (r2.dropWhile jsSpace).length ≤ r2.length := dropWhile_length_le jsSpace r2
        _ < (l.dropWhile jsSpace).length := by rw [hd]; simp
        _ ≤ l.length := dropWhile_length_le jsSpace l
    · exact absurd h (by simp [hc])

theorem matchFirstSep_shrink (l : List Char) :
    ∀ pre post, matchFirstSep l = some (pre, post) → post.length < l.length := by
  induction l with
  | nil => intro pre post h; exact absurd h (by simp [matchFirstSep])
  | cons x xs ih =>
    intro pre post h
    unfold matchFirstSep at h
    cases ha : matchSepAt (x :: xs) with
    | some p =>
      rw [ha] at h
      simp only [Option.some.injEq, Prod.mk.injEq] at h
      rw [← h.2]
      exact matchSepAt_shrink (x :: xs) p ha
    | none =>
      rw [ha] at h
      cases hb : matchFirstSep xs with
      | none => rw [hb] at h; exact absurd h (by simp)
      | some pp =>
        rw [hb] at h
        simp only [Option.some.injEq, Prod.mk.injEq] at h
        obtain ⟨h1, h2⟩ := h
        subst h2
        have := ih pp.1 pp.2 (by rw [hb])
        calc pp.2.length < xs.length := this
          _ < (x :: xs).length := by simp

theorem splitSepF_fuel_irrelevant (f1 : Nat) :
    ∀ f2 l, l.length < f1 → l.length < f2 → splitSepF f1 l = splitSepF f2 l := by
  induction f1 with
  | zero => intro f2 l h1 h2; omega
  | succ n ih =>
    intro f2 l h1 h2
    cases f2 with
    | zero => omega
    | succ m =>
      show (match matchFirstSep l with
        | none => [l]
        | some (pre, post) => pre :: splitSepF n post) =
        (match matchFirstSep l with
        | none => [l]
        | some (pre, post) => pre :: splitSepF m post)
      cases hm : matchFirstSep l with
      | none => rfl
      | some pp =>
        have hs := matchFirstSep_shrink l pp.1 pp.2 (by rw [hm])
        have e1 : pp.2.length < n := by omega
        have e2 : pp.2.length < m := by omega
        cases pp with
        | mk pre post =>
          simp only []
          rw [ih m post e1 e2]

/-- C8: the keywords validator accepts a non-empty input exactly when
splitting the trimmed input on comma (optionally surrounded by
whitespace) yields at most 5 entries; the input consisting of the six
comma-separated letters a-f is rejected with the five-keyword message,
and the input of the three letters a-c is accepted and parses to the
three singleton keywords. -/
theorem c8_keywords_validator :
    (∀ v : List Char, v ≠ [] →
      (keywordsValidate v = none ↔ (splitSep (trimChars v)).length ≤ 5)) ∧
    keywordsValidate kwSix = some keywordsLimitMsg ∧
    keywordsValidate kwThree = none ∧
    keywordsParse kwThree = [['a'], ['b'], ['c']] := by
  refine ⟨?_, by decide, by decide, by decide⟩
  intro v hv
  unfold keywordsValidate
  have he : v.isEmpty = false := by
    cases v with
    | nil => exact absurd rfl hv
    | cons a l => rfl
  rw [he]
  simp only [Bool.false_eq_true, if_false]
  constructor
  · intro h
    by_cases hlen : 5 < (splitSep (trimChars v)).length
    · rw [if_pos hlen] at h; exact absurd h (by simp)
    · omega
  · intro h
    rw [if_neg (by omega)]

/-- Witness for `c8_keywords_validator` at the concrete input
consisting of the single letter x. -/
theorem c8_keywords_validator_witness :
    keywordsValidate (("x").toList) = none ↔
      (splitSep (trimChars (("x").toList))).length ≤ 5 :=
  c8_keywords_validator.1 (("x").toList) (by decide)

/-! ### Generic lemmas about greedy runs -/

theorem takeWhile_append_all (p : Char → Bool) (xs ys : List Char)
    (h : ∀ x ∈ xs, p x = true) :
    (xs ++ ys).takeWhile p = xs ++ ys.takeWhile p := by
  induction xs with
  | nil => simp
  | cons a l ih =>
    have ha := h a (List.mem_cons_self a l)
    rw [List.cons_append, List.takeWhile_cons_of_pos ha,
      ih (fun x hx => h x (List.mem_cons_of_mem a hx)), List.cons_append]

theorem dropWhile_append_all (p : Char → Bool) (xs ys : List Char)
    (h : ∀ x ∈ xs, p x = true) :
    (xs ++ ys).dropWhile p = ys.dropWhile p := by
  induction xs with
  | nil => simp
  | cons a l ih =>
    have ha := h a (List.mem_cons_self a l)
    rw [List.cons_append, List.dropWhile_cons_of_pos ha,
      ih (fun x hx => h x (List.mem_cons_of_mem a hx))]

theorem dropWhile_head_false (p : Char → Bool) (l : List Char) (c : Char) (rest : List Char)
    (h : l.dropWhile p = c :: rest) : p c = false := by
  induction l with
  | nil => simp at h
  | cons a l ih =>
    by_cases ha : p a
    · rw [List.dropWhile_cons_of_pos ha] at h; exact ih h
    · rw [List.dropWhile_cons_of_neg ha] at h
      injection h with h1 h2
      rw [← h1]
      exact Bool.eq_false_iff.mpr ha

theorem isPrefixOf_append_self (pre t : List Char) : pre.isPrefixOf (pre ++ t) = true := by
  rw [List.isPrefixOf_iff_prefix]
  exact List.prefix_append pre t

theorem eq_append_drop_of_isPrefixOf (pre l : List Char) (h : pre.isPrefixOf l = true) :
    l = pre ++ l.drop pre.length := by
  rw [List.isPrefixOf_iff_prefix] at h
  obtain ⟨t, ht⟩ := h
  rw [← ht, List.drop_left]

theorem runThen_sound (p : Char → Bool) (sep : Char) (l run rest : List Char)
    (h : runThen p sep l = some (run, rest)) :
    run ≠ [] ∧ (∀ x ∈ run, p x = true) ∧ l = run ++ sep :: rest := by
  unfold runThen at h
  by_cases he : (l.takeWhile p).isEmpty
  · rw [if_pos he] at h; simp at h
  · rw [if_neg he] at h
    cases hd : l.dropWhile p with
    | nil => rw [hd] at h; simp at h
    | cons c r =>
      rw [hd] at h
      by_cases hc : c = sep
      · simp only [hc, if_true, Option.some.injEq, Prod.mk.injEq] at h
        obtain ⟨h1, h2⟩ := h
        subst h1
        subst h2
        refine ⟨?_, ?_, ?_⟩
        · intro hh
          rw [hh] at he
          exact he rfl
        · intro x hx
          exact List.mem_takeWhile_imp hx
        · conv_lhs => rw [← List.takeWhile_append_dropWhile p l]
          rw [hd, hc]
      · simp only [hc, if_false] at h
        simp [hc] at h

theorem runThen_complete (p : Char → Bool) (sep : Char) (run rest : List Char)
    (hne : run ≠ []) (hall : ∀ x ∈ run, p x = true) (hsep : p sep = false) :
    runThen p sep (run ++ sep :: rest) = some (run, rest) := by
  have ht : (run ++ sep :: rest).takeWhile p = run := by
    rw [takeWhile_append_all p run _ hall,
      List.takeWhile_cons_of_neg (by simp [hsep]), List.append_nil]
  have hdp : (run ++ sep :: rest).dropWhile p = sep :: rest := by
    rw [dropWhile_append_all p run _ hall, List.dropWhile_cons_of_neg (by simp [hsep])]
  unfold runThen
  rw [ht, hdp]
  have hemp : run.isEmpty = false := by
    cases run with
    | nil => exact absurd rfl hne
    | cons a l => rfl
  rw [hemp]
  simp

/-! ### Repository-URL regexp: soundness and completeness of the scan -/

theorem matchUrlAt_sound (l m rest : List Char) (h : matchUrlAt l = some (m, rest)) :
    l = m ++ rest ∧ urlShaped m := by
  unfold matchUrlAt at h
  by_cases hp : httpsLit.isPrefixOf l
  case neg => rw [if_neg hp] at h; simp at h
  rw [if_pos hp] at h
  cases h1 : runThen isHostChar '/' (l.drop httpsLit.length) with
  | none => rw [h1] at h; simp at h
  | some ar =>
    obtain ⟨a, r2⟩ := ar
    rw [h1] at h
    simp only [] at h
    cases h2 : runThen isWordChar '/' r2 with
    | none => rw [h2] at h; simp at h
    | some br =>
      obtain ⟨b, r4⟩ := br
      rw [h2] at h
      simp only [] at h
      obtain ⟨hane, haall, hsp1⟩ := runThen_sound _ _ _ _ _ h1
      obtain ⟨hbne, hball, hsp2⟩ := runThen_sound _ _ _ _ _ h2
      by_cases hce : (r4.takeWhile isRepoChar).isEmpty
      · simp [hce] at h
      · simp only [Bool.not_eq_true] at hce
        simp only [hce, Bool.false_eq_true, if_false, Option.some.injEq, Prod.mk.injEq] at h
        obtain ⟨hm, hrest⟩ := h
        have hcne : r4.takeWhile isRepoChar ≠ [] := by
          intro hh
          rw [hh] at hce
          simp at hce
        constructor
        · rw [← hm, ← hrest]
          conv_lhs => rw [eq_append_drop_of_isPrefixOf _ _ hp]
          rw [hsp1, hsp2]
          simp [List.append_assoc]
        · exact ⟨a, b, r4.takeWhile isRepoChar, hane, hbne, hcne, haall, hball,
            fun x hx => List.mem_takeWhile_imp hx, hm.symm⟩

theorem matchUrlAt_complete (a b c rest : List Char) (ha : a ≠ []) (hb : b ≠ []) (hc : c ≠ [])
    (hha : ∀ x ∈ a, isHostChar x = true) (hhb : ∀ x ∈ b, isWordChar x = true)
    (hhc : ∀ x ∈ c, isRepoChar x = true) :
    (matchUrlAt (httpsLit ++ (a ++ '/' :: (b ++ '/' :: (c ++ rest))))).isSome = true := by
  have h1 := runThen_complete isHostChar '/' a (b ++ '/' :: (c ++ rest)) ha hha (by decide)
  have h2 := runThen_complete isWordChar '/' b (c ++ rest) hb hhb (by decide)
  have h3 : ((c ++ rest).takeWhile isRepoChar).isEmpty = false := by
    rw [takeWhile_append_all _ _ _ hhc]
    cases c with
    | nil => exact absurd rfl hc
    | cons c0 c' => rfl
  unfold matchUrlAt
  rw [if_pos (isPrefixOf_append_self _ _), List.drop_left, h1]
  simp only [h2, h3, Bool.false_eq_true, if_false, Option.isSome_some]

theorem matchFirstUrl_sound (l : List Char) :
    ∀ pre m post, matchFirstUrl l = some (pre, m, post) →
      l = pre ++ m ++ post ∧ urlShaped m := by
  induction l with
  | nil => intro pre m post h; simp [matchFirstUrl] at h
  | cons x xs ih =>
    intro pre m post h
    unfold matchFirstUrl at h
    cases hA : matchUrlAt (x :: xs) with
    | some mr =>
      obtain ⟨m0, rest0⟩ := mr
      rw [hA] at h
      simp only [Option.some.injEq, Prod.mk.injEq] at h
      obtain ⟨h1, h2, h3⟩ := h
      subst h1
      subst h2
      subst h3
      obtain ⟨hsplit, hshape⟩ := matchUrlAt_sound _ _ _ hA
      exact ⟨by simpa using hsplit, hshape⟩
    | none =>
      rw [hA] at h
      cases hB : matchFirstUrl xs with
      | none => rw [hB] at h; simp at h
      | some pmr =>
        obtain ⟨pre1, m1, post1⟩ := pmr
        rw [hB] at h
        simp only [Option.some.injEq, Prod.mk.injEq] at h
        obtain ⟨h1, h2, h3⟩ := h
        subst h1
        subst h2
        subst h3
        obtain ⟨hsplit, hshape⟩ := ih pre1 m1 post1 hB
        exact ⟨by simp [hsplit], hshape⟩

theorem matchFirstUrl_none_imp (l : List Char) (h : matchFirstUrl l = none) :
    ∀ pre m post, l = pre ++ m ++ post → ¬ urlShaped m := by
  induction l with
  | nil =>
    intro pre m post heq hshape
    obtain ⟨a, b, c, _, _, _, _, _, _, hm⟩ := hshape
    have hm0 : m = [] := by
      have h2 := List.append_eq_nil.mp heq.symm
      exact (List.append_eq_nil.mp h2.1).2
    rw [hm0] at hm
    have hlen := congrArg List.length hm
    have h8 : httpsLit.length = 8 := rfl
    simp [List.length_append, h8] at hlen
    omega
  | cons x xs ih =>
    have hsub : matchUrlAt (x :: xs) = none ∧ matchFirstUrl xs = none := by
      unfold matchFirstUrl at h
      cases hA : matchUrlAt (x :: xs) with
      | some mr =>
        obtain ⟨m0, r0⟩ := mr
        rw [hA] at h
        simp at h
      | none =>
        rw [hA] at h
        cases hB : matchFirstUrl xs with
        | none => exact ⟨rfl, rfl⟩
        | some pmr =>
          obtain ⟨p1, m1, r1⟩ := pmr
          rw [hB] at h
          simp at h
    intro pre m post heq hshape
    cases pre with
    | nil =>
      simp only [List.nil_append] at heq
      obtain ⟨a, b, c, ha, hb, hc, hha, hhb, hhc, hm⟩ := hshape
      have hcomp := matchUrlAt_complete a b c post ha hb hc hha hhb hhc
      have hform : x :: xs = httpsLit ++ (a ++ '/' :: (b ++ '/' :: (c ++ post))) := by
        rw [heq, hm]
        simp [List.append_assoc]
      rw [← hform, hsub.1] at hcomp
      simp at hcomp
    | cons y pre' =>
      rw [List.cons_append, List.cons_append] at heq
      injection heq with e1 e2
      exact ih hsub.2 pre' m post e2 hshape

theorem expandRepl_no_dollar (m b a r : List Char) (h : '$' ∉ r) :
    expandRepl m b a r = r := by
  induction r with
  | nil => rfl
  | cons c rest ih =>
    have hc : c ≠ '$' := fun hh => h (hh ▸ List.mem_cons_self c rest)
    rw [expandRepl.eq_def]
    simp only [hc, if_false]
    rw [ih (fun hh => h (List.mem_cons_of_mem c hh))]

theorem replaceUrl_substituted (repoUrl s : List Char) (h : '$' ∉ repoUrl) :
    urlSubstituted repoUrl s (replaceUrl repoUrl s) := by
  unfold replaceUrl
  cases hM : matchFirstUrl s with
  | none =>
    exact Or.inr ⟨matchFirstUrl_none_imp s hM, rfl⟩
  | some pmr =>
    obtain ⟨pre, m, post⟩ := pmr
    obtain ⟨hsplit, hshape⟩ := matchFirstUrl_sound s pre m post hM
    refine Or.inl ⟨pre, m, post, hsplit, hshape, ?_⟩
    show pre ++ expandRepl m pre post repoUrl ++ post = pre ++ repoUrl ++ post
    rw [expandRepl_no_dollar _ _ _ _ h]

/-! ### C2: the manifest rewrite step -/

/-- C2 counterexample: the claim says `repository.url` is rewritten by
substituting an embedded repository-URL-shaped substring, but the code
assigns the resolved repository URL to `repository.url` outright; on a
manifest whose `repository.url` is `git+https://github.com/old/old.git`
the two differ. -/
theorem c2_repository_url_not_substituted :
    (rewritePkg pkgA optsA infoA).repository.url ≠
      replaceUrl infoA.repoUrl pkgA.repository.url := by decide

/-- C2 amended: the manifest rewrite overwrites the identity fields
with the answers, rewrites `homepage` and `bugs.url` by substituting
the embedded repository-URL-shaped substring (leaving them unchanged
when none occurs), sets `repository.url` directly to the resolved
repository URL, and sets `bugs.email` to the resolved author email. -/
theorem c2_manifest_rewrite_amended (p : Pkg) (o : Options) (info : RepositoryInfo)
    (h : '$' ∉ info.repoUrl) :
    (rewritePkg p o info).name = o.name ∧
    (rewritePkg p o info).displayName = o.displayName ∧
    (rewritePkg p o info).description = o.description ∧
    (rewritePkg p o info).author =
      { name := o.authorName, email := o.authorEmail, url := o.authorUrl } ∧
    (rewritePkg p o info).keywords = o.keywords ∧
    (rewritePkg p o info).categories = o.categories ∧
    (rewritePkg p o info).repository.url = info.repoUrl ∧
    (rewritePkg p o info).bugs.email = info.email ∧
    urlSubstituted info.repoUrl p.homepage (rewritePkg p o info).homepage ∧
    urlSubstituted info.repoUrl p.bugs.url (rewritePkg p o info).bugs.url :=
  ⟨rfl, rfl, rfl, rfl, rfl, rfl, rfl, rfl,
   replaceUrl_substituted info.repoUrl p.homepage h,
   replaceUrl_substituted info.repoUrl p.bugs.url h⟩

/-- Witness for `c2_manifest_rewrite_amended` at the concrete fixture
manifest and repository info. -/
theorem c2_manifest_rewrite_witness :
    (rewritePkg pkgA optsA infoA).repository.url = infoA.repoUrl ∧
    urlSubstituted infoA.repoUrl pkgA.homepage (rewritePkg pkgA optsA infoA).homepage :=
  ⟨(c2_manifest_rewrite_amended pkgA optsA infoA (by decide)).2.2.2.2.2.2.1,
   (c2_manifest_rewrite_amended pkgA optsA infoA (by decide)).2.2.2.2.2.2.2.2.1⟩

/-! ### C3: frame preservation of the manifest rewrite -/

theorem updateBadges_characterized (repoUrl : List Char) (bs : List Badge) :
    ((∀ b ∈ bs, b.description ≠ prsWelcome) ∧ updateBadges repoUrl bs = bs) ∨
    (∃ bs1 b bs2, bs = bs1 ++ b :: bs2 ∧ (∀ x ∈ bs1, x.description ≠ prsWelcome) ∧
      b.description = prsWelcome ∧
      updateBadges repoUrl bs =
        bs1 ++ { b with href := replaceUrl repoUrl b.href } :: bs2) := by
  induction bs with
  | nil => exact Or.inl ⟨by simp, rfl⟩
  | cons b bs ih =>
    by_cases hb : b.description = prsWelcome
    · exact Or.inr ⟨[], b, bs, rfl, by simp, hb, by simp [updateBadges, hb]⟩
    · rcases ih with ⟨hall, heq⟩ | ⟨bs1, b0, bs2, hsplit, hall1, hb0, heq⟩
      · left
        refine ⟨?_, by simp [updateBadges, hb, heq]⟩
        intro x hx
        rcases List.mem_cons.mp hx with hx1 | hx1
        · rw [hx1]; exact hb
        · exact hall x hx1
      · right
        refine ⟨b :: bs1, b0, bs2, by rw [hsplit, List.cons_append], ?_, hb0, ?_⟩
        · intro x hx
          rcases List.mem_cons.mp hx with hx1 | hx1
          · rw [hx1]; exact hb
          · exact hall1 x hx1
        · simp [updateBadges, hb, heq, List.cons_append]

/-- C3: fields not targeted by the flow are structurally unchanged by
the manifest rewrite: `engines`, `devDependencies`, all other manifest
content (`rest`), `repository.type`, and every badge except the `href`
of the first badge whose description is the PRs-Welcome literal (all
badge `url`/`description` fields and the `href` of every other badge
are preserved, as the badge-list characterization states). -/
theorem c3_frame_preservation (p : Pkg) (o : Options) (info : RepositoryInfo) :
    (rewritePkg p o info).engines = p.engines ∧
    (rewritePkg p o info).devDependencies = p.devDependencies ∧
    (rewritePkg p o info).rest = p.rest ∧
    (rewritePkg p o info).repository.type = p.repository.type ∧
    (((∀ b ∈ p.badges, b.description ≠ prsWelcome) ∧
        (rewritePkg p o info).badges = p.badges) ∨
     (∃ bs1 b bs2, p.badges = bs1 ++ b :: bs2 ∧
        (∀ x ∈ bs1, x.description ≠ prsWelcome) ∧
        b.description = prsWelcome ∧
        (rewritePkg p o info).badges =
          bs1 ++ { b with href := replaceUrl info.repoUrl b.href } :: bs2)) :=
  ⟨rfl, rfl, rfl, rfl, updateBadges_characterized info.repoUrl p.badges⟩

/-! ### SSH remote regexp: soundness and completeness of the scan -/

theorem matchSshAt_sound (l hn u r : List Char) (h : matchSshAt l = some (hn, u, r)) :
    ∃ rest, l = (gitAtLit ++ hn ++ ':' :: (u ++ '/' :: (r ++ dotGitLit))) ++ rest ∧
      sshShaped (gitAtLit ++ hn ++ ':' :: (u ++ '/' :: (r ++ dotGitLit))) := by
  unfold matchSshAt at h
  by_cases hp : gitAtLit.isPrefixOf l
  case neg => rw [if_neg hp] at h; simp at h
  rw [if_pos hp] at h
  cases h1 : runThen isHostChar ':' (l.drop gitAtLit.length) with
  | none => rw [h1] at h; simp at h
  | some ar =>
    obtain ⟨a, r2⟩ := ar
    rw [h1] at h
    simp only [] at h
    cases h2 : runThen isWordChar '/' r2 with
    | none => rw [h2] at h; simp at h
    | some br =>
      obtain ⟨b, r3⟩ := br
      rw [h2] at h
      simp only [] at h
      obtain ⟨hane, haall, hsp1⟩ := runThen_sound _ _ _ _ _ h1
      obtain ⟨hbne, hball, hsp2⟩ := runThen_sound _ _ _ _ _ h2
      by_cases hce : (r3.takeWhile isRepoChar).isEmpty
      · simp [hce] at h
      · simp only [Bool.not_eq_true] at hce
        by_cases hg : dotGitLit.isPrefixOf (r3.dropWhile isRepoChar)
        · simp only [hce, Bool.false_eq_true, if_false, hg, if_true,
            Option.some.injEq, Prod.mk.injEq] at h
          obtain ⟨rfl, rfl, rfl⟩ := h
          have hcne : r3.takeWhile isRepoChar ≠ [] := by
            intro hh
            rw [hh] at hce
            simp at hce
          refine ⟨(r3.dropWhile isRepoChar).drop dotGitLit.length, ?_, ?_⟩
          · conv_lhs => rw [eq_append_drop_of_isPrefixOf _ _ hp]
            rw [hsp1, hsp2]
            conv_lhs =>
              rw [← List.takeWhile_append_dropWhile isRepoChar r3,
                eq_append_drop_of_isPrefixOf _ _ hg]
            simp [List.append_assoc]
          · exact ⟨_, _, _, hane, hbne, hcne, haall, hball,
              fun x hx => List.mem_takeWhile_imp hx, rfl⟩
        · simp [hce, hg] at h

theorem matchSshAt_complete (hn u r rest : List Char) (ha : hn ≠ []) (hb : u ≠ []) (hc : r ≠ [])
    (hha : ∀ x ∈ hn, isHostChar x = true) (hhb : ∀ x ∈ u, isWordChar x = true)
    (hhc : ∀ x ∈ r, isRepoChar x = true) :
    (matchSshAt (gitAtLit ++ (hn ++ ':' :: (u ++ '/' :: (r ++ (dotGitLit ++ rest)))))).isSome
      = true := by
  have h1 := runThen_complete isHostChar ':' hn (u ++ '/' :: (r ++ (dotGitLit ++ rest)))
    ha hha (by decide)
  have h2 := runThen_complete isWordChar '/' u (r ++ (dotGitLit ++ rest)) hb hhb (by decide)
  have hdg : dotGitLit ++ rest = '.' :: (("git").toList ++ rest) := rfl
  have h3 : ((r ++ (dotGitLit ++ rest)).takeWhile isRepoChar) = r := by
    rw [takeWhile_append_all _ _ _ hhc, hdg, List.takeWhile_cons_of_neg (by decide),
      List.append_nil]
  have h4 : ((r ++ (dotGitLit ++ rest)).dropWhile isRepoChar) = dotGitLit ++ rest := by
    rw [dropWhile_append_all _ _ _ hhc, hdg, List.dropWhile_cons_of_neg (by decide)]
  have h5 : r.isEmpty = false := by
    cases r with
    | nil => exact absurd rfl hc
    | cons c0 c' => rfl
  unfold matchSshAt
  rw [if_pos (isPrefixOf_append_self _ _), List.drop_left, h1]
  simp only [h2, h3, h4, h5, Bool.false_eq_true, if_false,
    isPrefixOf_append_self, if_true, Option.isSome_some]

theorem matchFirstSsh_sound (l : List Char) :
    ∀ hn u r, matchFirstSsh l = some (hn, u, r) →
      ∃ pre m post, l = pre ++ m ++ post ∧ sshShaped m := by
  induction l with
  | nil => intro hn u r h; simp [matchFirstSsh] at h
  | cons x xs ih =>
    intro hn u r h
    unfold matchFirstSsh at h
    cases hA : matchSshAt (x :: xs) with
    | some res =>
      obtain ⟨hn0, u0, r0⟩ := res
      rw [hA] at h
      simp only [Option.some.injEq, Prod.mk.injEq] at h
      obtain ⟨rfl, rfl, rfl⟩ := h
      obtain ⟨rest, hsplit, hshape⟩ := matchSshAt_sound _ _ _ _ hA
      exact ⟨[], _, rest, by simpa using hsplit, hshape⟩
    | none =>
      rw [hA] at h
      simp only [] at h
      obtain ⟨pre, m, post, hsplit, hshape⟩ := ih hn u r h
      exact ⟨x :: pre, m, post, by simp [hsplit], hshape⟩

theorem matchFirstSsh_none_imp (l : List Char) (h : matchFirstSsh l = none) :
    ∀ pre m post, l = pre ++ m ++ post → ¬ sshShaped m := by
  induction l with
  | nil =>
    intro pre m post heq hshape
    obtain ⟨a, b, c, _, _, _, _, _, _, hm⟩ := hshape
    have hm0 : m = [] := by
      have h2 := List.append_eq_nil.mp heq.symm
      exact (List.append_eq_nil.mp h2.1).2
    rw [hm0] at hm
    have hlen := congrArg List.length hm
    have h4 : gitAtLit.length = 4 := rfl
    simp [List.length_append, h4] at hlen
    omega
  | cons x xs ih =>
    have hsub : matchSshAt (x :: xs) = none ∧ matchFirstSsh xs = none := by
      unfold matchFirstSsh at h
      cases hA : matchSshAt (x :: xs) with
      | some res =>
        obtain ⟨hn0, u0, r0⟩ := res
        rw [hA] at h
        simp at h
      | none =>
        rw [hA] at h
        simp only [] at h
        exact ⟨rfl, h⟩
    intro pre m post heq hshape
    cases pre with
    | nil =>
      simp only [List.nil_append] at heq
      obtain ⟨a, b, c, ha, hb, hc, hha, hhb, hhc, hm⟩ := hshape
      have hcomp := matchSshAt_complete a b c post ha hb hc hha hhb hhc
      have hform : x :: xs = gitAtLit ++ (a ++ ':' :: (b ++ '/' :: (c ++ (dotGitLit ++ post)))) := by
        rw [heq, hm]
        simp [List.append_assoc]
      rw [← hform, hsub.1] at hcomp
      simp at hcomp
    | cons y pre' =>
      rw [List.cons_append, List.cons_append] at heq
      injection heq with e1 e2
      exact ih hsub.2 pre' m post e2 hshape

/-! ### C4: invalid remote aborts the whole run -/

/-- C4: for every remote-origin output that contains no substring of
the SSH form required by the pattern, repository-info resolution fails
with the documented error and `main` ends fatally before the prompt
flow, the file rewrites, the installs or the commit run: the files are
untouched and no `setup` outcome exists. -/
theorem c4_invalid_remote_fatal (remote nm em : List Char)
    (hno : ∀ pre m post, remote = pre ++ m ++ post → ¬ sshShaped m)
    (installed : Bool) (ev : UserEvents) (fs : FileState) (year : Nat) (tazePkg : Pkg) :
    getRepositoryInfo remote nm em = Except.error remoteErrMsg ∧
    mainRun remote nm em installed ev fs year tazePkg = MainOutcome.fatal remoteErrMsg fs := by
  have hnone : matchFirstSsh remote = none := by
    cases hm : matchFirstSsh remote with
    | none => rfl
    | some res =>
      obtain ⟨hn, u, r⟩ := res
      obtain ⟨pre, m, post, hsplit, hshape⟩ := matchFirstSsh_sound remote hn u r hm
      exact absurd hshape (hno pre m post hsplit)
  constructor
  · unfold getRepositoryInfo
    rw [hnone]
  · unfold mainRun getRepositoryInfo
    rw [hnone]

/-- Witness for `c4_invalid_remote_fatal`: an HTTPS-form remote URL is
rejected and the run ends fatally with the files untouched. -/
theorem c4_invalid_remote_witness :
    getRepositoryInfo badRemote (("Jane").toList) (("j@m").toList) =
      Except.error remoteErrMsg ∧
    mainRun badRemote (("Jane").toList) (("j@m").toList) true evFullUpdate fsA 2026 pkgA =
      MainOutcome.fatal remoteErrMsg fsA :=
  c4_invalid_remote_fatal badRemote (("Jane").toList) (("j@m").toList)
    (matchFirstSsh_none_imp badRemote (by decide)) true evFullUpdate fsA 2026 pkgA

/-! ### C10: the author homepage URL repeats the user name -/

/-- C10: whenever repository-info resolution succeeds with hostname
`hn`, user `u` and repository `r`, the resolved author homepage URL is
`https://hn/u/u` — the user name occurs twice as path segments — and in
particular it is not the single-segment URL `https://hn/u`; the
repository URL has the same shape with the repository name in place of
the second occurrence. -/
theorem c10_author_homepage_double_user (remote nm em hn u r : List Char)
    (hm : matchFirstSsh remote = some (hn, u, r)) :
    getRepositoryInfo remote nm em = Except.ok
      { hostname := hn, name := nm, email := em, url := httpsOf hn u u,
        userName := u, repoName := r, repoUrl := httpsOf hn u r } ∧
    httpsOf hn u u ≠ httpsLit ++ hn ++ '/' :: u := by
  constructor
  · unfold getRepositoryInfo
    rw [hm]
  · intro he
    have hlen := congrArg List.length he
    simp [httpsOf, List.length_append] at hlen

/-- Witness for `c10_author_homepage_double_user` at a concrete SSH
remote output. -/
theorem c10_author_homepage_double_user_witness :
    getRepositoryInfo goodRemote (("Jane").toList) (("j@m").toList) = Except.ok
      { hostname := ("github.com").toList, name := ("Jane").toList, email := ("j@m").toList,
        url := httpsOf (("github.com").toList) (("tjx666").toList) (("tjx666").toList),
        userName := ("tjx666").toList, repoName := ("boilerplate-setup").toList,
        repoUrl := httpsOf (("github.com").toList) (("tjx666").toList)
          (("boilerplate-setup").toList) } ∧
    httpsOf (("github.com").toList) (("tjx666").toList) (("tjx666").toList) ≠
      httpsLit ++ ("github.com").toList ++ '/' :: ("tjx666").toList :=
  c10_author_homepage_double_user goodRemote _ _ _ _ _ (by decide)

/-! ### C9: the licence update -/

theorem natCharsF_fuel_irrelevant (f1 : Nat) :
    ∀ f2 n, n < f1 → n < f2 → natCharsF f1 n = natCharsF f2 n := by
  induction f1 with
  | zero => intro f2 n h1 h2; omega
  | succ k ih =>
    intro f2 n h1 h2
    cases f2 with
    | zero => omega
    | succ m =>
      show (if n < 10 then [Nat.digitChar n]
        else natCharsF k (n / 10) ++ [Nat.digitChar (n % 10)]) =
        (if n < 10 then [Nat.digitChar n]
        else natCharsF m (n / 10) ++ [Nat.digitChar (n % 10)])
      by_cases hn : n < 10
      · rw [if_pos hn, if_pos hn]
      · rw [if_neg hn, if_neg hn]
        have hdiv : n / 10 < n := Nat.div_lt_self (by omega) (by omega)
        rw [ih m (n / 10) (by omega) (by omega)]

theorem digitChar_ne_dollar (m : Nat) (h : m < 10) : Nat.digitChar m ≠ '$' := by
  interval_cases m <;> decide

theorem natCharsF_no_dollar (fuel : Nat) : ∀ n, '$' ∉ natCharsF fuel n := by
  induction fuel with
  | zero => intro n; simp [natCharsF]
  | succ k ih =>
    intro n
    show '$' ∉ (if n < 10 then [Nat.digitChar n]
      else natCharsF k (n / 10) ++ [Nat.digitChar (n % 10)])
    by_cases hn : n < 10
    · rw [if_pos hn]
      intro hmem
      exact digitChar_ne_dollar n hn (List.mem_singleton.mp hmem).symm
    · rw [if_neg hn]
      intro hmem
      rcases List.mem_append.mp hmem with h1 | h1
      · exact ih (n / 10) h1
      · exact digitChar_ne_dollar (n % 10) (Nat.mod_lt n (by omega))
          (List.mem_singleton.mp h1).symm

theorem natChars_no_dollar (n : Nat) : '$' ∉ natChars n :=
  natCharsF_no_dollar (n + 1) n

theorem copyrightText_no_dollar (year : Nat) (name : List Char) (hname : '$' ∉ name) :
    '$' ∉ copyrightText year name := by
  unfold copyrightText
  intro hmem
  rcases List.mem_append.mp hmem with h1 | h1
  · rcases List.mem_append.mp h1 with h2 | h2
    · exact absurd h2 (by decide)
    · exact natChars_no_dollar year h2
  · rcases List.mem_cons.mp h1 with h2 | h2
    · exact absurd h2 (by decide)
    · exact hname h2

/-- C9: on a licence file whose copyright line is
`Copyright (c) 2020 OldName`, the licence update step replaces exactly
that first occurrence of the copyright pattern with
`Copyright (c) <year> <authorName>` and leaves the text before and
after it unchanged (for any year and any author name free of the
replacement-pattern dollar character). -/
theorem c9_license_update (year : Nat) (name : List Char) (hname : '$' ∉ name) :
    licenseUpdate licSample year name = licPre ++ copyrightText year name ++ licPost := by
  have hm : matchFirstCopyright licSample = some (licPre, licCopyOld, licPost) := by decide
  unfold licenseUpdate
  rw [hm]
  show licPre ++ expandRepl licCopyOld licPre licPost (copyrightText year name) ++ licPost =
    licPre ++ copyrightText year name ++ licPost
  rw [expandRepl_no_dollar _ _ _ _ (copyrightText_no_dollar year name hname)]

/-- Witness for `c9_license_update` with year 2026 and author name
Jane. -/
theorem c9_license_update_witness :
    licenseUpdate licSample 2026 (("Jane").toList) =
      licPre ++ copyrightText 2026 (("Jane").toList) ++ licPost :=
  c9_license_update 2026 (("Jane").toList) (by decide)

/-! ### C1: cancellation behaviour of the prompt flow -/

theorem runFlow_isSome_iff (installed : Bool) (ev : UserEvents) :
    (runFlow installed ev).isSome = true ↔
      (ev.name ≠ none ∧ ev.displayName ≠ none ∧ ev.description ≠ none ∧
       ev.authorName ≠ none ∧ ev.authorEmail ≠ none ∧ ev.authorUrl ≠ none ∧
       ev.commit ≠ none) := by
  unfold runFlow
  cases hn : ev.name <;> cases hd : ev.displayName <;> cases hds : ev.description <;>
    cases han : ev.authorName <;> cases hae : ev.authorEmail <;> cases hau : ev.authorUrl <;>
      cases hc : ev.commit <;> simp

/-- C1 counterexample: cancelling at the keywords question does not
abort the run; the flow continues with an empty keyword list and the
run completes, rewriting the changelog (and the other files). -/
theorem c1_cancel_keywords_not_abort :
    setupRun infoA true evCancelKeywords fsA 2026 pkgA ≠ RunOutcome.cancelledExit 0 fsA ∧
    (outFiles (setupRun infoA true evCancelKeywords fsA 2026 pkgA)).changelog ≠
      fsA.changelog := by
  constructor
  · decide
  · decide

/-- C1 amended: cancelling at the name, displayName, description,
authorName, authorEmail, authorUrl or commit question aborts the whole
flow — the partially collected answers are discarded, the manifest,
changelog and licence files are left exactly as they were, and the
process exits with code 0; cancelling at the keywords, categories,
installDeps or updateDeps question does not abort: the answer is
replaced by a default (empty list or false) and the flow completes. -/
theorem c1_cancellation_amended :
    (∀ (info : RepositoryInfo) (installed : Bool) (ev : UserEvents) (fs : FileState)
        (year : Nat) (tazePkg : Pkg),
      (ev.name = none ∨ ev.displayName = none ∨ ev.description = none ∨
       ev.authorName = none ∨ ev.authorEmail = none ∨ ev.authorUrl = none ∨
       ev.commit = none) →
      setupRun info installed ev fs year tazePkg = RunOutcome.cancelledExit 0 fs) ∧
    (∀ (installed : Bool) (ev : UserEvents),
      ev.name ≠ none → ev.displayName ≠ none → ev.description ≠ none →
      ev.authorName ≠ none → ev.authorEmail ≠ none → ev.authorUrl ≠ none →
      ev.commit ≠ none → (runFlow installed ev).isSome = true) := by
  constructor
  · intro info installed ev fs year tazePkg hdisj
    have hnot : ¬((runFlow installed ev).isSome = true) := by
      rw [runFlow_isSome_iff]
      intro hconj
      rcases hdisj with h | h | h | h | h | h | h
      · exact hconj.1 h
      · exact hconj.2.1 h
      · exact hconj.2.2.1 h
      · exact hconj.2.2.2.1 h
      · exact hconj.2.2.2.2.1 h
      · exact hconj.2.2.2.2.2.1 h
      · exact hconj.2.2.2.2.2.2 h
    have hnone : runFlow installed ev = none := by
      cases hrf : runFlow installed ev with
      | none => rfl
      | some o => rw [hrf] at hnot; simp at hnot
    unfold setupRun
    rw [hnone]
  · intro installed ev h1 h2 h3 h4 h5 h6 h7
    rw [runFlow_isSome_iff]
    exact ⟨h1, h2, h3, h4, h5, h6, h7⟩

/-- Witness for `c1_cancellation_amended`: cancelling at the name
question aborts with exit code 0 and unmodified files, while a flow
whose only cancellation is at the keywords question still completes. -/
theorem c1_cancellation_witness :
    setupRun infoA true evCancelName fsA 2026 pkgA = RunOutcome.cancelledExit 0 fsA ∧
    (runFlow true evCancelKeywords).isSome = true :=
  ⟨c1_cancellation_amended.1 infoA true evCancelName fsA 2026 pkgA (Or.inl rfl),
   c1_cancellation_amended.2 true evCancelKeywords (by decide) (by decide) (by decide)
     (by decide) (by decide) (by decide) (by decide)⟩

/-! ### C5: the engine mirror after the dependency upgrade is lost -/

/-- C5 (code bug): in a run that performs the dependency upgrade, the
code re-reads the manifest and assigns
`pkg.engines.vscode = pkg.devDependencies['@types/vscode']` on a local
object that is never written back (vscode.ts lines 237-238 lack an
`updatePkg` call), so the on-disk manifest keeps its old
`engines.vscode` and does not record the resolved `@types/vscode`
version: here the final manifest still has engine `^1.70.0` although
`@types/vscode` resolved to `^1.84.0`, and the mirrored manifest the
code computes and discards differs from the one on disk. -/
theorem c5_engines_not_persisted :
    (outFiles (setupRun infoA true evFullUpdate fsA 2026 pkgA)).pkgFile.engines.vscode =
      ("^1.70.0").toList ∧
    lookupDep (outFiles (setupRun infoA true evFullUpdate fsA 2026 pkgA)).pkgFile.devDependencies
      typesVscodeKey = some (("^1.84.0").toList) ∧
    mirrorEngines pkgA = some { pkgA with engines := { vscode := ("^1.84.0").toList } } ∧
    (outFiles (setupRun infoA true evFullUpdate fsA 2026 pkgA)).pkgFile ≠
      { pkgA with engines := { vscode := ("^1.84.0").toList } } := by
  refine ⟨by decide, by decide, by decide, by decide⟩
